import Mathlib

/-!
# Verification of `generate_testcases.py`

A shallow embedding of the pure parsing and spreadsheet-editing logic of
`src/generate_testcases.py`, together with proofs settling the claims of the
specification against that code.

Strings are modelled as `List Char` (accessed through `String.data`); the
Python string primitives used by the source (`str.split`, `str.strip`,
`str.lower`, `str.splitlines`, `in`, `str.startswith`, `str.rstrip`) are
re-implemented below with their Python semantics restricted to the ASCII
fragment the program manipulates.
-/

set_option maxRecDepth 100000

/-- Python whitespace (`str.strip`, regex `\s`), ASCII fragment:
space, tab, newline, carriage return, vertical tab, form feed. -/
def pyWs (c : Char) : Bool :=
  c = ' ' || c = '\t' || c = '\n' || c = '\r' || c = '\x0b' || c = '\x0c'

/-- Python `str.lower`, per character (ASCII). -/
def lowerC (c : Char) : Char := c.toLower

/-- Python line-break characters recognised by `str.splitlines` (ASCII
fragment plus the Unicode separators). -/
def isLB (c : Char) : Bool :=
  c = '\n' || c = '\r' || c = '\x0b' || c = '\x0c' ||
  c = '\x1c' || c = '\x1d' || c = '\x1e' || c = '\u0085' ||
  c = '\u2028' || c = '\u2029'

/-- Python `str.strip()` : drop whitespace from both ends. -/
def stripChars (l : List Char) : List Char :=
  (l.dropWhile pyWs).rdropWhile pyWs

/-- `needle` is a prefix of `hay` (exact characters). -/
def startsL : List Char → List Char → Bool
  | [], _ => true
  | _ :: _, [] => false
  | n :: ns, h :: hs => n = h && startsL ns hs

/-- Case-insensitive prefix test: `needle` (already lowercase) against
`hay` lowered character-wise.  Models `hay.lower().startswith(needle)`. -/
def ciStartsL : List Char → List Char → Bool
  | [], _ => true
  | _ :: _, [] => false
  | n :: ns, h :: hs => n = lowerC h && ciStartsL ns hs

/-- Contiguous-substring test, models Python `needle in hay`. -/
def containsSeq (needle : List Char) : List Char → Bool
  | [] => startsL needle []
  | h :: hs => startsL needle (h :: hs) || containsSeq needle hs

/-- Python `s.split(c)` for a one-character separator `c`. -/
def splitCh (c : Char) : List Char → List (List Char)
  | [] => [[]]
  | x :: rest =>
    if x = c then [] :: splitCh c rest
    else
      match splitCh c rest with
      | [] => [[x]]
      | g :: gs => (x :: g) :: gs

/-- Join a list of chunks with the separator `c`: the inverse of `splitCh`. -/
def interChar (c : Char) : List (List Char) → List Char
  | [] => []
  | [x] => x
  | x :: y :: rest => x ++ c :: interChar c (y :: rest)

/-- Worker for `pySplitlines`: accumulates the current line (reversed). -/
def slGo (acc : List Char) : List Char → List (List Char)
  | [] => [acc.reverse]
  | '\r' :: '\n' :: rest =>
    acc.reverse :: (if rest.isEmpty then [] else slGo [] rest)
  | c :: rest =>
    if isLB c then acc.reverse :: (if rest.isEmpty then [] else slGo [] rest)
    else slGo (c :: acc) rest

/-- Python `str.splitlines()`: split at line boundaries (`\r\n` counts as a
single boundary); a terminal boundary produces no trailing empty line. -/
def pySplitlines (cs : List Char) : List (List Char) :=
  match cs with
  | [] => []
  | _ :: _ => slGo [] cs

/-- Python `"|" in line`. -/
def hasPipe (l : List Char) : Bool := l.contains '|'

/-- Python `"Test Case ID" in line`. -/
def hasTCID (l : List Char) : Bool := containsSeq "Test Case ID".data l

/-- `line.split("|")[1:-1]`, each cell `strip()`ped — the cell list the
parser associates with one markdown table line (source line 134/139). -/
def cellsOf (l : List Char) : List String :=
  (((splitCh '|' l).drop 1).dropLast).map (fun cs => String.mk (stripChars cs))

/-- Number of pipe-delimited cells the parser sees on a line. -/
def cellCount (l : List Char) : Nat := (cellsOf l).length

/-- The three `ValueError`s `parse_markdown_table` can raise, named after the
spec's error taxonomy: the first two are its `MalformedTableError`, the last
its `EmptyResultError`. -/
inductive TableError where
  | headerNotFound : TableError
  | tooFewLines : TableError
  | noRows : TableError
deriving DecidableEq, Repr

/-- The spec's `MalformedTableError` covers the first two raise sites. -/
def TableError.isMalformed : TableError → Bool
  | .headerNotFound => true
  | .tooFewLines => true
  | .noRows => false

/-- A parsed table row: the association list `zip(header_cells, parts)`
underlying the Python `dict`. -/
abbrev Row := List (String × String)

/-- The scan for the first line containing both a pipe and `"Test Case ID"`
(source lines 112-116); returns the suffix of the line list starting there. -/
def findHeaderSuffix : List (List Char) → Option (List (List Char))
  | [] => none
  | l :: rest =>
    if hasPipe l && hasTCID l then some (l :: rest) else findHeaderSuffix rest

/-- The collection loop of source lines 122-129: gather lines containing a
pipe, stopping at the first pipe-free line once collection has started. -/
def collectGo : List (List Char) → List (List Char) → List (List Char)
  | [], acc => acc
  | l :: rest, acc =>
    if hasPipe l then collectGo rest (acc ++ [l])
    else if acc.isEmpty then collectGo rest acc
    else acc

/-- One iteration of the row loop (source lines 138-141): keep the row only
when its cell count matches the header's. -/
def rowOf (header_cells : List String) (row_line : List Char) : Option Row :=
  let parts := cellsOf row_line
  if parts.length = header_cells.length then some (header_cells.zip parts)
  else none

/-- Source lines 131-146 applied to the collected table lines: reject a
table of fewer than three lines, skip the separator, keep matching rows,
reject an empty result. -/
def parseFromTable (table_lines : List (List Char)) :
    Except TableError (List Row) :=
  match table_lines with
  | hdr :: _sep :: row1 :: rows =>
    let header_cells := cellsOf hdr
    let test_cases := (row1 :: rows).filterMap (rowOf header_cells)
    if test_cases.isEmpty then .error .noRows else .ok test_cases
  | _ => .error .tooFewLines

/-- Shallow embedding of `parse_markdown_table` (source lines 108-146). -/
def parse_markdown_table (s : String) : Except TableError (List Row) :=
  match findHeaderSuffix (pySplitlines s.data) with
  | none => .error .headerNotFound
  | some tl => parseFromTable (collectGo tl [])

/-! ## Worksheet model (`set_header_field`, `fill_excel_template`) -/

/-- An openpyxl cell value as the code observes it: a string
(`isinstance(cell.value, str)`), `None`, or any other value. -/
inductive Cell where
  | str (s : String) : Cell
  | empty : Cell
  | other : Cell
deriving DecidableEq, Repr

/-- A worksheet: cell contents indexed by 1-based row and column. -/
abbrev Grid := Nat → Nat → Cell

/-- `ws.cell(row=r, column=c).value = v`. -/
def setCell (ws : Grid) (r c : Nat) (v : Cell) : Grid :=
  fun r' c' => if r' = r ∧ c' = c then v else ws r' c'

/-- `label.lower().rstrip(":") + ":"` — the prefix `set_header_field`
compares against (source line 161/168). -/
def labelKeyOf (label : String) : List Char :=
  ((label.data.map lowerC).rdropWhile (fun c => c = ':')) ++ [':']

/-- The match test of source line 166-168: the cell holds a string whose
stripped, lowered text starts with the label key. -/
def matchCell (key : List Char) : Cell → Bool
  | .str s => startsL key ((stripChars s.data).map lowerC)
  | _ => false

/-- Source lines 170-171: keep the cell text before the first colon
(of the stripped text) and rewrite to `"<prefix>: <value>"`, stripped. -/
def rewriteText (value : String) (s : String) : String :=
  let text := stripChars s.data
  let pre := text.takeWhile (fun c => c != ':')
  String.mk (stripChars (pre ++ ':' :: ' ' :: value.data))

/-- Lift `rewriteText` to a cell (only string cells are ever rewritten). -/
def rewriteCell (value : String) : Cell → Cell
  | .str s => .str (rewriteText value s)
  | c => c

/-- The row-major scan order of the two nested loops of source
lines 162-163: rows `1..rows`, and within a row columns `1..cols`. -/
def windowCoords (rows cols : Nat) : List (Nat × Nat) :=
  (List.range rows).flatMap (fun r => (List.range cols).map (fun c => (r + 1, c + 1)))

/-- The search window of `set_header_field`: rows `1..rows`,
columns `1..cols`. -/
def inWindow (rows cols r c : Nat) : Prop :=
  1 ≤ r ∧ r ≤ rows ∧ 1 ≤ c ∧ c ≤ cols

instance (rows cols r c : Nat) : Decidable (inWindow rows cols r c) := by
  unfold inWindow
  infer_instance

/-- Strict row-major order on coordinates. -/
def rmLT (a b : Nat × Nat) : Prop :=
  a.1 < b.1 ∨ (a.1 = b.1 ∧ a.2 < b.2)

/-- Shallow embedding of `set_header_field` (source lines 160-173): scan the
search window in row-major order for the first string cell matching the label
key; rewrite it and report success, else report failure with the grid
untouched. -/
def set_header_field (ws : Grid) (label value : String)
    (search_rows search_cols : Nat) : Bool × Grid :=
  let key := labelKeyOf label
  match (windowCoords search_rows search_cols).find?
      (fun rc => matchCell key (ws rc.1 rc.2)) with
  | some rc => (true, setCell ws rc.1 rc.2 (rewriteCell value (ws rc.1 rc.2)))
  | none => (false, ws)

/-- Python `dict.get` on the association list built by `dict(zip(...))`:
the last binding of a key wins. -/
def dictGet (row : Row) (k : String) : Option String :=
  (row.reverse.find? (fun kv => kv.1 = k)).map (fun kv => kv.2)

/-- Writing an optional string into a cell (`None` clears it). -/
def toCell : Option String → Cell
  | some s => .str s
  | none => .empty

/-- Source lines 192-198: one test case written into columns B..H. -/
def writeRow (ws : Grid) (r : Nat) (tc : Row) : Grid :=
  let w1 := setCell ws r 2 (toCell (dictGet tc "Test Case ID"))
  let w2 := setCell w1 r 3 (toCell (dictGet tc "Preconditions"))
  let w3 := setCell w2 r 4 (toCell (dictGet tc "Test Condition"))
  let w4 := setCell w3 r 5 (toCell (dictGet tc "Steps with description"))
  let w5 := setCell w4 r 6 (toCell (dictGet tc "Expected Result"))
  let w6 := setCell w5 r 7 (toCell (dictGet tc "Actual Result"))
  setCell w6 r 8 (toCell (dictGet tc "Remarks"))

/-- The row loop of source lines 190-198, starting at `start_row = 6`. -/
def writeGo : Grid → Nat → List Row → Grid
  | ws, _, [] => ws
  | ws, r, tc :: rest => writeGo (writeRow ws r tc) (r + 1) rest

/-- Source lines 182-184: the guard on the MFP fallback cell E3. -/
def e3Writable : Cell → Bool
  | .empty => true
  | .str s => s = "" || s = "MFP:" || s = "MFP"
  | .other => false

/-- Shallow embedding of `fill_excel_template` (source lines 155-200),
restricted to its effect on the worksheet grid. -/
def fill_excel_template (test_cases : List Row) (ws : Grid)
    (component_name : String) : Grid :=
  let s1 := set_header_field ws "Component" component_name 10 12
  let ws2 := if s1.1 then s1.2
    else setCell s1.2 2 5 (.str ("Component: " ++ component_name))
  let s2 := set_header_field ws2 "MFP" "Any" 10 12
  let ws4 := if s2.1 then s2.2
    else if e3Writable (s2.2 3 5) then setCell s2.2 3 5 (.str "MFP: Any")
    else s2.2
  writeGo ws4 6 test_cases

/-! ## The `extract_component` regex search

`extract_component` runs
`re.search(r"(?im)^\s*Component\s*:\s*(.+?)\s*$", text)`.  The embedding
below is that regex engine specialised to this one pattern: `re.search`
tries every position from left to right; `^` (multiline) restricts match
starts to the string start and positions following a newline; `\s*` is
greedy with backtracking, `(.+?)` lazy, and `$` (multiline) matches at the
string end or before a newline.  Because the pattern's literal characters
(`Component`, `:`) are never whitespace, each greedy `\s*` before a literal
can only match the full whitespace run, and the engine's preferences reduce
to: longest whitespace run after the colon first, then shortest nonempty
group. -/

/-- Lowercase needle for the literal `Component` (case-insensitive flag). -/
def compLower : List Char := "component".data

/-- Length of the leading whitespace run (what a greedy `\s*` consumes). -/
def wsRunLen (cs : List Char) : Nat := (cs.takeWhile pyWs).length

/-- After the lazy group, `\s*$` must complete: some whitespace prefix of
the remainder ends at the string end or just before a newline.  Since any
character ending the whitespace run is non-whitespace (hence not `\n`),
this holds exactly when the whitespace run contains a newline or the whole
remainder is whitespace. -/
def restOk (r : List Char) : Bool :=
  (r.takeWhile pyWs).contains '\n' || r.all pyWs

/-- Matching `\s*(.+?)\s*$` against `cs` and returning the group: try the
whitespace-run lengths `a` greedily (longest first); for each, try group
lengths `g` lazily (shortest first, nonempty, no newline inside) and check
that `\s*$` completes on the remainder. -/
def tailTryA (cs : List Char) (a : Nat) : Option (List Char) :=
  let cs' := cs.drop a
  ((List.range cs'.length).map (fun n => n + 1)).findSome? (fun g =>
    if (cs'.take g).all (fun ch => ch != '\n') && restOk (cs'.drop g)
      then some (cs'.take g) else none)

/-- The whole `\s*(.+?)\s*$` match: whitespace-run lengths `a` tried
greedily, longest first. -/
def tailMatch (cs : List Char) : Option (List Char) :=
  ((List.range (wsRunLen cs + 1)).reverse).findSome? (tailTryA cs)

/-- Matching `Component\s*:\s*(.+?)\s*$` at a position already past the
leading `\s*` (so the next character is non-whitespace or the end). -/
def tryAtCore (cs1 : List Char) : Option (List Char) :=
  if ciStartsL compLower cs1 then
    match (cs1.drop 9).dropWhile pyWs with
    | c :: cs4 => if c = ':' then tailMatch cs4 else none
    | [] => none
  else none

/-- Attempt the whole pattern at an anchor position: the leading greedy
`\s*` must consume the entire whitespace run. -/
def tryAt (cs : List Char) : Option (List Char) :=
  tryAtCore (cs.dropWhile pyWs)

/-- The suffixes at positions following each `'\n'`, in order. -/
def anchorsGo : List Char → List (List Char)
  | [] => []
  | c :: rest => if c = '\n' then rest :: anchorsGo rest else anchorsGo rest

/-- All multiline `^`-anchor positions, leftmost first. -/
def anchorSuffixes (cs : List Char) : List (List Char) :=
  cs :: anchorsGo cs

/-- `re.search` for the component pattern: first anchor that matches wins;
the result is the captured group. -/
def reSearchComponent (cs : List Char) : Option (List Char) :=
  (anchorSuffixes cs).findSome? tryAt

/-- Shallow embedding of `extract_component` (source lines 95-100). -/
def extract_component (s : String) : String :=
  match reSearchComponent s.data with
  | some g => String.mk (stripChars g)
  | none => "Unknown"

/-- The claim's literal reading of `extract_component`: the trimmed value
after the prefix on the first line that starts with a case-insensitive
`Component:` prefix; `"Unknown"` when no such line exists. -/
def componentClaimValue (s : String) : String :=
  match (splitCh '\n' s.data).find? (fun l => ciStartsL "component:".data l) with
  | some l => String.mk (stripChars (l.drop 10))
  | none => "Unknown"

/-- A line is *clean* for the component search: if its left-stripped text
begins with a case-insensitive `component`, then either the label is
immediately followed by `:` and a value containing a non-whitespace
character, or the character right after the label exists and is neither
whitespace nor `:`.  This excludes the lines on which the regex's
whitespace-crossing behaviour diverges from a line-by-line reading
(blank value after the colon, whitespace between label and colon, value
continued on the next line). -/
def lineGuard (l : List Char) : Bool :=
  let x := l.dropWhile pyWs
  if ciStartsL compLower x then
    match x.drop 9 with
    | c :: rest => if c = ':' then rest.any (fun ch => !(pyWs ch)) else !(pyWs c)
    | [] => false
  else true

/-- The line-based reading: the line's left-stripped text begins with a
case-insensitive `Component:`. -/
def beginsComp (l : List Char) : Bool :=
  ciStartsL "component:".data (l.dropWhile pyWs)

/-- Line-based specification of the component extraction: the stripped text
after the colon of the first `Component:` line; `"Unknown"` otherwise. -/
def componentFromLines (ls : List (List Char)) : String :=
  match ls.find? beginsComp with
  | some l => String.mk (stripChars ((l.dropWhile pyWs).drop 10))
  | none => "Unknown"

example : lineGuard "Component: Widget".data = true := by rfl

example : lineGuard "Component:".data = false := by rfl

example : lineGuard " Component : x".data = false := by rfl

example : lineGuard "Componentization rocks".data = true := by rfl

example : lineGuard "anything else".data = true := by rfl

example : extract_component "Component: Widget X" = "Widget X" := by rfl

example : extract_component "junk\n  cOmPoNeNt  :  stuff  \nmore" = "stuff" := by
  rfl

example : extract_component "no match at line start" = "Unknown" := by rfl

example : extract_component "Component:\nWidget" = "Widget" := by rfl

example : extract_component "Component: " = "" := by rfl

example : extract_component "Component:" = "Unknown" := by rfl

example :
    (set_header_field
      (fun r c => if r = 2 ∧ c = 3 then .str "Component:" else .empty)
      "Component" "Widget X" 10 12).1 = true := by rfl

example :
    (set_header_field
      (fun r c => if r = 2 ∧ c = 3 then .str "Component:" else .empty)
      "Component" "Widget X" 10 12).2 2 3 = .str "Component: Widget X" := by rfl

example :
    (set_header_field (fun _ _ => .empty) "MFP" "Any" 10 12).1 = false := by rfl

example :
    parse_markdown_table
      "| Test Case ID | Preconditions |\n|---|---|\n| TC001 | None |" =
    .ok [[("Test Case ID", "TC001"), ("Preconditions", "None")]] := by rfl

example :
    parse_markdown_table "no table here" = .error .headerNotFound := by rfl

/-! ## Helper lemmas about the table scan -/

theorem findHeaderSuffix_append_of_none (pre rest : List (List Char))
    (hpre : ∀ l ∈ pre, ¬(hasPipe l = true ∧ hasTCID l = true)) :
    findHeaderSuffix (pre ++ rest) = findHeaderSuffix rest := by
  induction pre with
  | nil => rfl
  | cons l ls ih =>
    have hl := hpre l (by simp)
    have : (hasPipe l && hasTCID l) = false := by
      cases hp : hasPipe l <;> cases ht : hasTCID l <;> simp_all
    simp only [List.cons_append, findHeaderSuffix, this, Bool.false_eq_true,
      if_false]
    exact ih (fun x hx => hpre x (by simp [hx]))

theorem findHeaderSuffix_cons_of_header (l : List Char) (rest : List (List Char))
    (hp : hasPipe l = true) (ht : hasTCID l = true) :
    findHeaderSuffix (l :: rest) = some (l :: rest) := by
  simp [findHeaderSuffix, hp, ht]

theorem collectGo_of_acc_ne_nil (xs : List (List Char))
    (acc : List (List Char)) (hacc : acc ≠ []) :
    collectGo xs acc = acc ++ xs.takeWhile hasPipe := by
  induction xs generalizing acc with
  | nil => simp [collectGo]
  | cons l ls ih =>
    simp only [collectGo, List.takeWhile_cons]
    cases hp : hasPipe l with
    | true =>
      simp only [if_true]
      rw [ih (acc ++ [l]) (by simp)]
      simp
    | false =>
      have : acc.isEmpty = false := by
        cases acc with
        | nil => exact absurd rfl hacc
        | cons a as => rfl
      simp [this]

theorem collectGo_start (l : List Char) (rest : List (List Char))
    (hp : hasPipe l = true) :
    collectGo (l :: rest) [] = l :: rest.takeWhile hasPipe := by
  simp only [collectGo, hp, if_true, List.nil_append]
  rw [collectGo_of_acc_ne_nil rest [l] (by simp)]
  simp

theorem takeWhile_append_of_all {α : Type} (p : α → Bool)
    (xs ys : List α) (h : ∀ x ∈ xs, p x = true) :
    (xs ++ ys).takeWhile p = xs ++ ys.takeWhile p := by
  induction xs with
  | nil => rfl
  | cons x rest ih =>
    simp only [List.cons_append, List.takeWhile_cons, h x (by simp)]
    simp only [if_true]
    rw [ih (fun y hy => h y (by simp [hy]))]

theorem takeWhile_of_head_false (p : List Char → Bool)
    (ys : List (List Char)) (h : ∀ l, ys.head? = some l → p l = false) :
    ys.takeWhile p = [] := by
  cases ys with
  | nil => rfl
  | cons y rest => simp [List.takeWhile_cons, h y rfl]

theorem rowOf_eq_some (hc : List String) (l : List Char)
    (h : (cellsOf l).length = hc.length) :
    rowOf hc l = some (hc.zip (cellsOf l)) := by
  simp [rowOf, h]

theorem rowOf_eq_none (hc : List String) (l : List Char)
    (h : ¬(cellsOf l).length = hc.length) :
    rowOf hc l = none := by
  simp [rowOf, h]

theorem filterMap_rowOf_eq_map (hc : List String) (ls : List (List Char))
    (h : ∀ l ∈ ls, cellCount l = hc.length) :
    ls.filterMap (rowOf hc) = ls.map (fun l => hc.zip (cellsOf l)) := by
  induction ls with
  | nil => rfl
  | cons l rest ih =>
    have hl : (cellsOf l).length = hc.length := h l (by simp)
    simp only [List.filterMap_cons, rowOf_eq_some hc l hl, List.map_cons]
    rw [ih (fun x hx => h x (by simp [hx]))]

theorem filterMap_rowOf_eq_filter_map (hc : List String)
    (ls : List (List Char)) :
    ls.filterMap (rowOf hc) =
      (ls.filter (fun l => cellCount l == hc.length)).map
        (fun l => hc.zip (cellsOf l)) := by
  induction ls with
  | nil => rfl
  | cons l rest ih =>
    by_cases hl : (cellsOf l).length = hc.length
    · have h2 : (cellCount l == hc.length) = true := by simp [cellCount, hl]
      simp only [List.filterMap_cons, rowOf_eq_some hc l hl, List.filter_cons,
        h2, if_true, List.map_cons]
      rw [ih]
    · have h2 : (cellCount l == hc.length) = false := by simp [cellCount, hl]
      simp only [List.filterMap_cons, rowOf_eq_none hc l hl, List.filter_cons,
        h2]
      rw [ih]
      simp

theorem findHeaderSuffix_eq_none_iff (ls : List (List Char)) :
    findHeaderSuffix ls = none ↔
      ∀ l ∈ ls, ¬(hasPipe l = true ∧ hasTCID l = true) := by
  induction ls with
  | nil => simp [findHeaderSuffix]
  | cons l rest ih =>
    cases hp : hasPipe l <;> cases ht : hasTCID l <;>
      simp [findHeaderSuffix, hp, ht, ih]

theorem findHeaderSuffix_eq_some_inv (ls tl : List (List Char))
    (h : findHeaderSuffix ls = some tl) :
    ∃ pre h0 t, ls = pre ++ h0 :: t ∧ tl = h0 :: t ∧
      (∀ l ∈ pre, ¬(hasPipe l = true ∧ hasTCID l = true)) ∧
      hasPipe h0 = true ∧ hasTCID h0 = true := by
  induction ls generalizing tl with
  | nil => simp [findHeaderSuffix] at h
  | cons l rest ih =>
    by_cases hl : hasPipe l = true ∧ hasTCID l = true
    · refine ⟨[], l, rest, rfl, ?_, by simp, hl.1, hl.2⟩
      have : findHeaderSuffix (l :: rest) = some (l :: rest) :=
        findHeaderSuffix_cons_of_header l rest hl.1 hl.2
      rw [this] at h
      exact (Option.some_inj.mp h).symm
    · have hb : (hasPipe l && hasTCID l) = false := by
        cases hp : hasPipe l <;> cases ht : hasTCID l <;> simp_all
      rw [findHeaderSuffix, hb] at h
      simp only [Bool.false_eq_true, if_false] at h
      obtain ⟨pre, h0, t, hrest, htl, hpre, hhp, hht⟩ := ih tl h
      refine ⟨l :: pre, h0, t, by simp [hrest], htl, ?_, hhp, hht⟩
      intro x hx
      rcases List.mem_cons.mp hx with rfl | hx
      · exact hl
      · exact hpre x hx

theorem filterMap_rowOf_eq_nil_iff (hc : List String) (ls : List (List Char)) :
    ls.filterMap (rowOf hc) = [] ↔
      ∀ l ∈ ls, ¬(cellsOf l).length = hc.length := by
  rw [filterMap_rowOf_eq_filter_map, List.map_eq_nil_iff,
    List.filter_eq_nil_iff]
  simp [cellCount]

/-! ## C3 -/

/-- **C3**: `parse_markdown_table` fails with the spec's
`MalformedTableError` exactly when either no line of the input contains
both a pipe and `"Test Case ID"`, or the contiguous run of pipe-containing
lines starting at the first such header line has fewer than three lines. -/
theorem parse_markdown_table_malformed_iff (s : String) :
    (∃ e, parse_markdown_table s = .error e ∧ e.isMalformed = true) ↔
    ((∀ l ∈ pySplitlines s.data, ¬(hasPipe l = true ∧ hasTCID l = true)) ∨
     (∃ pre h0 t, pySplitlines s.data = pre ++ h0 :: t ∧
        (∀ l ∈ pre, ¬(hasPipe l = true ∧ hasTCID l = true)) ∧
        hasPipe h0 = true ∧ hasTCID h0 = true ∧
        ((h0 :: t).takeWhile hasPipe).length < 3)) := by
  constructor
  · rintro ⟨e, he, hmal⟩
    cases hf : findHeaderSuffix (pySplitlines s.data) with
    | none => exact Or.inl ((findHeaderSuffix_eq_none_iff _).mp hf)
    | some tl =>
      obtain ⟨pre, h0, t, hls, htl, hpre, hhp, hht⟩ :=
        findHeaderSuffix_eq_some_inv _ tl hf
      subst htl
      right
      refine ⟨pre, h0, t, hls, hpre, hhp, hht, ?_⟩
      have hparse : parse_markdown_table s =
          parseFromTable ((h0 :: t).takeWhile hasPipe) := by
        simp only [parse_markdown_table, hf]
        rw [collectGo_start h0 t hhp, List.takeWhile_cons, hhp]
        simp
      rcases hrun : (h0 :: t).takeWhile hasPipe with _ | ⟨a, _ | ⟨b, _ | ⟨c, rest⟩⟩⟩
      · simp
      · simp
      · simp
      · exfalso
        rw [hparse, hrun] at he
        simp only [parseFromTable] at he
        split at he
        · injection he with he'
          subst he'
          simp [TableError.isMalformed] at hmal
        · simp at he
  · rintro (hnone | ⟨pre, h0, t, hls, hpre, hhp, hht, hlen⟩)
    · refine ⟨.headerNotFound, ?_, rfl⟩
      simp only [parse_markdown_table,
        (findHeaderSuffix_eq_none_iff _).mpr hnone]
    · refine ⟨.tooFewLines, ?_, rfl⟩
      have hf : findHeaderSuffix (pySplitlines s.data) = some (h0 :: t) := by
        rw [hls, findHeaderSuffix_append_of_none pre _ hpre,
          findHeaderSuffix_cons_of_header h0 t hhp hht]
      simp only [parse_markdown_table, hf]
      rw [collectGo_start h0 t hhp]
      rw [List.takeWhile_cons, hhp] at hlen
      simp only [if_true] at hlen
      cases htw : t.takeWhile hasPipe with
      | nil => rfl
      | cons x xs =>
        cases xs with
        | nil => rfl
        | cons y ys =>
          exfalso
          rw [htw] at hlen
          simp at hlen
          omega

/-! ## C5 -/

/-- **C5**: `parse_markdown_table` fails with the spec's `EmptyResultError`
exactly when a table is found (header line plus a pipe run of at least
three lines) but every collected data line's cell count differs from the
header's cell count. -/
theorem parse_markdown_table_noRows_iff (s : String) :
    parse_markdown_table s = .error .noRows ↔
    (∃ pre h0 t, pySplitlines s.data = pre ++ h0 :: t ∧
       (∀ l ∈ pre, ¬(hasPipe l = true ∧ hasTCID l = true)) ∧
       hasPipe h0 = true ∧ hasTCID h0 = true ∧
       3 ≤ ((h0 :: t).takeWhile hasPipe).length ∧
       ∀ l ∈ ((h0 :: t).takeWhile hasPipe).drop 2,
         ¬cellCount l = cellCount h0) := by
  constructor
  · intro he
    cases hf : findHeaderSuffix (pySplitlines s.data) with
    | none =>
      rw [parse_markdown_table, hf] at he
      simp at he
    | some tl =>
      obtain ⟨pre, h0, t, hls, htl, hpre, hhp, hht⟩ :=
        findHeaderSuffix_eq_some_inv _ tl hf
      subst htl
      have hparse : parse_markdown_table s =
          parseFromTable ((h0 :: t).takeWhile hasPipe) := by
        simp only [parse_markdown_table, hf]
        rw [collectGo_start h0 t hhp, List.takeWhile_cons, hhp]
        simp
      refine ⟨pre, h0, t, hls, hpre, hhp, hht, ?_⟩
      rw [hparse] at he
      have hhead : (h0 :: t).takeWhile hasPipe =
          h0 :: t.takeWhile hasPipe := by
        rw [List.takeWhile_cons, hhp]
        simp
      rcases htw : t.takeWhile hasPipe with _ | ⟨x, _ | ⟨y, ys⟩⟩
      · rw [hhead, htw] at he
        simp [parseFromTable] at he
      · rw [hhead, htw] at he
        simp [parseFromTable] at he
      · rw [hhead, htw] at he
        simp only [parseFromTable] at he
        split at he
        case isTrue hie =>
          rw [hhead, htw]
          refine ⟨by simp, ?_⟩
          intro l hl
          rw [List.isEmpty_iff] at hie
          have := (filterMap_rowOf_eq_nil_iff (cellsOf h0) (y :: ys)).mp hie
          simpa [cellCount] using this l (by simpa using hl)
        case isFalse => simp at he
  · rintro ⟨pre, h0, t, hls, hpre, hhp, hht, hlen, hmis⟩
    have hf : findHeaderSuffix (pySplitlines s.data) = some (h0 :: t) := by
      rw [hls, findHeaderSuffix_append_of_none pre _ hpre,
        findHeaderSuffix_cons_of_header h0 t hhp hht]
    simp only [parse_markdown_table, hf]
    rw [collectGo_start h0 t hhp]
    have hhead : (h0 :: t).takeWhile hasPipe = h0 :: t.takeWhile hasPipe := by
      rw [List.takeWhile_cons, hhp]
      simp
    rcases htw : t.takeWhile hasPipe with _ | ⟨x, _ | ⟨y, ys⟩⟩
    · rw [hhead, htw] at hlen
      simp at hlen
    · rw [hhead, htw] at hlen
      simp at hlen
    · rw [hhead, htw] at hmis
      have hnil : (y :: ys).filterMap (rowOf (cellsOf h0)) = [] := by
        rw [filterMap_rowOf_eq_nil_iff]
        intro l hl
        simpa [cellCount] using hmis l (by simpa using hl)
      simp only [parseFromTable]
      rw [hnil]
      rfl

/-! ## C1 -/

/-- **C1**: for every text containing a well-formed markdown table (a header
line containing both a pipe and "Test Case ID", then a separator line, then
at least one data line, all with the same pipe-delimited cell count, the
header being the first header-like line and the table run ending at the
first pipe-free line), `parse_markdown_table` returns exactly one row per
data line, in order, and each returned row's key list equals the header
line's trimmed cell values. -/
theorem parse_markdown_table_wellformed
    (s : String) (pre data post : List (List Char)) (hdr sep : List Char)
    (hsplit : pySplitlines s.data = pre ++ hdr :: sep :: (data ++ post))
    (hpre : ∀ l ∈ pre, ¬(hasPipe l = true ∧ hasTCID l = true))
    (hhp : hasPipe hdr = true) (hht : hasTCID hdr = true)
    (hsep : hasPipe sep = true)
    (hdata : ∀ l ∈ data, hasPipe l = true)
    (hdata_ne : data ≠ [])
    (hpost : ∀ l, post.head? = some l → hasPipe l = false)
    (_hcount_sep : cellCount sep = cellCount hdr)
    (hcount : ∀ l ∈ data, cellCount l = cellCount hdr) :
    parse_markdown_table s =
      .ok (data.map (fun l => (cellsOf hdr).zip (cellsOf l))) ∧
    (data.map (fun l => (cellsOf hdr).zip (cellsOf l))).length = data.length ∧
    ∀ row ∈ data.map (fun l => (cellsOf hdr).zip (cellsOf l)),
      row.map Prod.fst = cellsOf hdr := by
  have hcollect :
      collectGo (hdr :: sep :: (data ++ post)) [] = hdr :: sep :: data := by
    rw [collectGo_start hdr _ hhp]
    simp only [List.takeWhile_cons, hsep, if_true]
    rw [takeWhile_append_of_all hasPipe data post hdata,
      takeWhile_of_head_false hasPipe post hpost, List.append_nil]
  obtain ⟨d, ds, rfl⟩ : ∃ d ds, data = d :: ds := by
    cases data with
    | nil => exact absurd rfl hdata_ne
    | cons d ds => exact ⟨d, ds, rfl⟩
  have hmap := filterMap_rowOf_eq_map (cellsOf hdr) (d :: ds)
    (fun l hl => hcount l hl)
  refine ⟨?_, by simp, ?_⟩
  · simp only [parse_markdown_table]
    rw [hsplit, findHeaderSuffix_append_of_none pre _ hpre,
      findHeaderSuffix_cons_of_header hdr _ hhp hht]
    dsimp only
    rw [hcollect]
    simp only [parseFromTable]
    rw [hmap]
    simp
  · intro row hrow
    simp only [List.mem_map] at hrow
    obtain ⟨l, hl, rfl⟩ := hrow
    exact List.map_fst_zip _ _ (le_of_eq (hcount l hl).symm)

/-- Witness for C1: the spec's own end-to-end example table. -/
theorem parse_markdown_table_wellformed_witness :
    parse_markdown_table
      ("| Test Case ID | Preconditions | Test Condition | Steps with description | Expected Result | Actual Result | Remarks |\n" ++
       "|---|---|---|---|---|---|---|\n" ++
       "| TC001 | None | Login | Enter valid credentials | User logged in | | |") =
    .ok [[("Test Case ID", "TC001"), ("Preconditions", "None"),
          ("Test Condition", "Login"),
          ("Steps with description", "Enter valid credentials"),
          ("Expected Result", "User logged in"), ("Actual Result", ""),
          ("Remarks", "")]] := by
  have h := parse_markdown_table_wellformed
    ("| Test Case ID | Preconditions | Test Condition | Steps with description | Expected Result | Actual Result | Remarks |\n" ++
     "|---|---|---|---|---|---|---|\n" ++
     "| TC001 | None | Login | Enter valid credentials | User logged in | | |")
    [] ["| TC001 | None | Login | Enter valid credentials | User logged in | | |".data]
    []
    "| Test Case ID | Preconditions | Test Condition | Steps with description | Expected Result | Actual Result | Remarks |".data
    "|---|---|---|---|---|---|---|".data
    (by rfl) (by simp) (by rfl) (by rfl) (by rfl)
    (by intro l hl; simp at hl; subst hl; rfl)
    (by simp) (by intro l hl; simp at hl)
    (by rfl) (by intro l hl; simp at hl; subst hl; rfl)
  rw [h.1]
  rfl

/-! ## C4 -/

/-- **C4**: any collected data line whose pipe-split cell count differs from
the header's is excluded from the result and causes no error by itself: the
parser returns exactly the rows of the well-formed data lines (provided at
least one remains). -/
theorem parse_markdown_table_drops_mismatched
    (s : String) (pre data post : List (List Char)) (hdr sep : List Char)
    (hsplit : pySplitlines s.data = pre ++ hdr :: sep :: (data ++ post))
    (hpre : ∀ l ∈ pre, ¬(hasPipe l = true ∧ hasTCID l = true))
    (hhp : hasPipe hdr = true) (hht : hasTCID hdr = true)
    (hsep : hasPipe sep = true)
    (hdata : ∀ l ∈ data, hasPipe l = true)
    (hpost : ∀ l, post.head? = some l → hasPipe l = false)
    (hgood : data.filter (fun l => cellCount l == cellCount hdr) ≠ []) :
    parse_markdown_table s =
      .ok ((data.filter (fun l => cellCount l == cellCount hdr)).map
        (fun l => (cellsOf hdr).zip (cellsOf l))) := by
  have hdata_ne : data ≠ [] := by
    intro h
    subst h
    simp at hgood
  have hcollect :
      collectGo (hdr :: sep :: (data ++ post)) [] = hdr :: sep :: data := by
    rw [collectGo_start hdr _ hhp]
    simp only [List.takeWhile_cons, hsep, if_true]
    rw [takeWhile_append_of_all hasPipe data post hdata,
      takeWhile_of_head_false hasPipe post hpost, List.append_nil]
  obtain ⟨d, ds, rfl⟩ : ∃ d ds, data = d :: ds := by
    cases data with
    | nil => exact absurd rfl hdata_ne
    | cons d ds => exact ⟨d, ds, rfl⟩
  simp only [parse_markdown_table]
  rw [hsplit, findHeaderSuffix_append_of_none pre _ hpre,
    findHeaderSuffix_cons_of_header hdr _ hhp hht]
  dsimp only
  rw [hcollect]
  simp only [parseFromTable]
  rw [filterMap_rowOf_eq_filter_map]
  have hne :
      ((d :: ds).filter (fun l => cellCount l == (cellsOf hdr).length)).map
        (fun l => (cellsOf hdr).zip (cellsOf l)) ≠ [] := by
    intro hmapnil
    rw [List.map_eq_nil_iff] at hmapnil
    exact hgood hmapnil
  cases hfe : ((d :: ds).filter (fun l => cellCount l == (cellsOf hdr).length)).map
      (fun l => (cellsOf hdr).zip (cellsOf l)) with
  | nil => exact absurd hfe hne
  | cons a as =>
    simp only [List.isEmpty_cons, Bool.false_eq_true, if_false]
    rw [← hfe]
    rfl

/-- Witness for C4: a table with one well-formed and one mismatched data
row keeps exactly the well-formed one. -/
theorem parse_markdown_table_drops_mismatched_witness :
    parse_markdown_table
      "| Test Case ID | P |\n|---|---|\n| a | b |\n| x | y | z |" =
    .ok [[("Test Case ID", "a"), ("P", "b")]] := by
  have h := parse_markdown_table_drops_mismatched
    "| Test Case ID | P |\n|---|---|\n| a | b |\n| x | y | z |"
    [] ["| a | b |".data, "| x | y | z |".data] []
    "| Test Case ID | P |".data "|---|---|".data
    (by rfl) (by simp) (by rfl) (by rfl) (by rfl)
    (by intro l hl; simp at hl; rcases hl with rfl | rfl <;> rfl)
    (by intro l hl; simp at hl)
    (by decide)
  rw [h]
  rfl

example :
    parse_markdown_table "| Test Case ID |\n|---|" = .error .tooFewLines := by
  rfl

example :
    parse_markdown_table "| Test Case ID | P |\n|---|---|\n| a | b | c |" =
    .error .noRows := by rfl

/-! ## C2 -/

/-- **C2 counterexample**: the parser performs no `<br>` normalization — a
cell written `a<br>b` is returned verbatim, not as `a` newline `b` as the
claim requires. -/
theorem parse_markdown_table_br_counterexample :
    parse_markdown_table "|Test Case ID|\n|---|\n|a<br>b|" =
      .ok [[("Test Case ID", "a<br>b")]] ∧
    ("a<br>b" : String) ≠ "a\nb" := by
  constructor
  · rfl
  · decide

/-- **C2 amended**: every value of every parsed row is exactly the
whitespace-trimmed text of a raw pipe-delimited cell of some input line,
taken verbatim — no `<br>`/escaped-newline normalization is applied. -/
theorem parse_markdown_table_values_verbatim (s : String) (rows : List Row)
    (hrows : parse_markdown_table s = .ok rows) :
    ∀ row ∈ rows, ∀ kv ∈ row,
      ∃ l, l ∈ pySplitlines s.data ∧
        ∃ raw, raw ∈ ((splitCh '|' l).drop 1).dropLast ∧
          kv.2 = String.mk (stripChars raw) := by
  intro row hrow kv hkv
  cases hf : findHeaderSuffix (pySplitlines s.data) with
  | none =>
    rw [parse_markdown_table, hf] at hrows
    simp at hrows
  | some tl =>
    obtain ⟨pre, h0, t, hls, htl, hpre, hhp, hht⟩ :=
      findHeaderSuffix_eq_some_inv _ tl hf
    subst htl
    simp only [parse_markdown_table, hf] at hrows
    rw [collectGo_start h0 t hhp] at hrows
    rcases htw : t.takeWhile hasPipe with _ | ⟨x, _ | ⟨y, ys⟩⟩
    · rw [htw] at hrows
      simp [parseFromTable] at hrows
    · rw [htw] at hrows
      simp [parseFromTable] at hrows
    · rw [htw] at hrows
      simp only [parseFromTable] at hrows
      split at hrows
      · simp at hrows
      · injection hrows with hrows
        subst hrows
        rw [List.mem_filterMap] at hrow
        obtain ⟨l, hl, hfl⟩ := hrow
        simp only [rowOf] at hfl
        split at hfl
        · injection hfl with hfl
          subst hfl
          obtain ⟨k, v⟩ := kv
          have hv : v ∈ cellsOf l := (List.of_mem_zip hkv).2
          rw [cellsOf, List.mem_map] at hv
          obtain ⟨raw, hraw, hv⟩ := hv
          refine ⟨l, ?_, raw, hraw, hv.symm⟩
          have h1 : l ∈ t.takeWhile hasPipe := by
            rw [htw]
            exact List.mem_cons_of_mem x hl
          have h2 : l ∈ t := (List.takeWhile_sublist hasPipe).subset h1
          rw [hls]
          exact List.mem_append_right _ (List.mem_cons_of_mem h0 h2)
        · simp at hfl

/-- Witness for the amended C2 at a concrete `<br>`-carrying table. -/
theorem parse_markdown_table_values_verbatim_witness :
    ∃ l, l ∈ pySplitlines ("|Test Case ID|\n|---|\n|a<br>b|" : String).data ∧
      ∃ raw, raw ∈ ((splitCh '|' l).drop 1).dropLast ∧
        ("a<br>b" : String) = String.mk (stripChars raw) :=
  parse_markdown_table_values_verbatim "|Test Case ID|\n|---|\n|a<br>b|"
    [[("Test Case ID", "a<br>b")]] (by rfl)
    [("Test Case ID", "a<br>b")] (by simp) ("Test Case ID", "a<br>b") (by simp)

/-! ## C10 -/

theorem splitCh_of_not_contains (c : Char) (x : List Char)
    (h : x.contains c = false) : splitCh c x = [x] := by
  induction x with
  | nil => rfl
  | cons ch rest ih =>
    simp only [List.contains_cons, Bool.or_eq_false_iff] at h
    have hch : ¬ch = c := by
      intro hc
      subst hc
      simp at h
    rw [splitCh, if_neg hch, ih h.2]

theorem splitCh_append_sep (c : Char) (x w : List Char)
    (h : x.contains c = false) :
    splitCh c (x ++ c :: w) = x :: splitCh c w := by
  induction x with
  | nil =>
    simp only [List.nil_append]
    rw [splitCh, if_pos rfl]
  | cons ch rest ih =>
    simp only [List.contains_cons, Bool.or_eq_false_iff] at h
    have hch : ¬ch = c := by
      intro hc
      subst hc
      simp at h
    simp only [List.cons_append]
    rw [splitCh, if_neg hch, ih h.2]

theorem splitCh_interChar (c : Char) (gs : List (List Char)) (hne : gs ≠ [])
    (h : ∀ g ∈ gs, g.contains c = false) :
    splitCh c (interChar c gs) = gs := by
  induction gs with
  | nil => exact absurd rfl hne
  | cons g rest ih =>
    cases rest with
    | nil => exact splitCh_of_not_contains c g (h g (by simp))
    | cons g2 gs2 =>
      rw [interChar, splitCh_append_sep c g _ (h g (by simp)),
        ih (by simp) (fun x hx => h x (by simp [hx]))]

/-- **C10**: for every table line, the parser keeps only the pipe-split
fields strictly between the first and the last: the outer two fields are
discarded unconditionally, so a line without leading/trailing outer pipes
loses its first and last cells even when they are non-empty. -/
theorem cellsOf_discards_outer_fields (first last : List Char)
    (mids : List (List Char))
    (h1 : first.contains '|' = false) (h2 : last.contains '|' = false)
    (hm : ∀ m ∈ mids, m.contains '|' = false) :
    cellsOf (interChar '|' (first :: (mids ++ [last]))) =
      mids.map (fun m => String.mk (stripChars m)) := by
  rw [cellsOf, splitCh_interChar '|' _ (by simp)]
  · simp only [List.drop_succ_cons, List.drop_zero, List.dropLast_concat]
  · intro g hg
    rcases List.mem_cons.mp hg with rfl | hg
    · exact h1
    · rcases List.mem_append.mp hg with hg | hg
      · exact hm g hg
      · rw [List.mem_singleton.mp hg]
        exact h2

/-- Witness for C10: the line `a|b|c` yields only the middle cell `b`; the
non-empty outer cells `a` and `c` are lost. -/
theorem cellsOf_discards_outer_fields_witness :
    cellsOf "a|b|c".data = ["b"] := by
  have h := cellsOf_discards_outer_fields "a".data "c".data ["b".data]
    (by rfl) (by rfl) (by intro m hm; simp at hm; subst hm; rfl)
  have hj : interChar '|' ("a".data :: (["b".data] ++ ["c".data])) =
      "a|b|c".data := by rfl
  rw [hj] at h
  rw [h]
  rfl

/-! ## C6 / C7: the header-field locator -/

theorem mem_windowCoords (rows cols r c : Nat) :
    (r, c) ∈ windowCoords rows cols ↔ inWindow rows cols r c := by
  simp only [windowCoords, List.mem_flatMap, List.mem_map, List.mem_range,
    inWindow, Prod.mk.injEq]
  constructor
  · rintro ⟨a, ha, b, hb, rfl, rfl⟩
    omega
  · rintro ⟨h1, h2, h3, h4⟩
    exact ⟨r - 1, by omega, c - 1, by omega, by omega, by omega⟩

theorem windowCoords_pairwise (rows cols : Nat) :
    (windowCoords rows cols).Pairwise rmLT := by
  rw [windowCoords, List.pairwise_flatMap]
  constructor
  · intro a _
    rw [List.pairwise_map]
    have := List.pairwise_lt_range cols
    refine this.imp ?_
    intro b c hbc
    exact Or.inr ⟨rfl, by omega⟩
  · have := List.pairwise_lt_range rows
    refine this.imp ?_
    intro a b hab
    intro x hx y hy
    simp only [List.mem_map, List.mem_range] at hx hy
    obtain ⟨xc, _, rfl⟩ := hx
    obtain ⟨yc, _, rfl⟩ := hy
    exact Or.inl (by omega)

theorem find?_eq_some_of_pairwise {α : Type} (R : α → α → Prop)
    (l : List α) (p : α → Bool) (a : α)
    (hpw : l.Pairwise R) (ha : a ∈ l) (hpa : p a = true)
    (hbefore : ∀ b ∈ l, R b a → p b = false) :
    l.find? p = some a := by
  induction l with
  | nil => simp at ha
  | cons x xs ih =>
    rcases List.pairwise_cons.mp hpw with ⟨hx, hxs⟩
    cases hpx : p x with
    | true =>
      rw [List.find?_cons_of_pos _ hpx]
      rcases List.mem_cons.mp ha with rfl | hmem
      · rfl
      · have := hbefore x (by simp) (hx a hmem)
        rw [hpx] at this
        cases this
    | false =>
      rw [List.find?_cons_of_neg _ (by simp [hpx])]
      rcases List.mem_cons.mp ha with rfl | hmem
      · rw [hpa] at hpx
        cases hpx
      · exact ih hxs hmem (fun b hb hr => hbefore b (by simp [hb]) hr)

/-- **C6 counterexample**: with the colon-suffixed label `"Component:"`, the
claim's prefix is `component::`, first matched (row-major) at cell (1,2);
but the code strips trailing colons from the label and therefore rewrites
cell (1,1) instead, leaving (1,2) untouched. -/
theorem set_header_field_counterexample :
    (set_header_field
      (fun r c => if r = 1 ∧ c = 1 then .str "Component: a"
        else if r = 1 ∧ c = 2 then .str "Component:: b" else .empty)
      "Component:" "v" 10 12).2 1 2 = .str "Component:: b" ∧
    (set_header_field
      (fun r c => if r = 1 ∧ c = 1 then .str "Component: a"
        else if r = 1 ∧ c = 2 then .str "Component:: b" else .empty)
      "Component:" "v" 10 12).2 1 1 = .str "Component: v" ∧
    Cell.str "Component:: b" ≠ .str "Component: v" := by
  refine ⟨by rfl, by rfl, by decide⟩

/-- **C6 amended**: for every grid with at least one string cell in the
search window whose stripped, lowercased text starts with the lowercased,
trailing-colon-stripped label followed by a colon, `set_header_field`
rewrites the first such cell in row-major order — preserving the cell text
before its first colon and appending `": <value>"`, the result trimmed —
returns `true`, and leaves every other cell unchanged. -/
theorem set_header_field_rewrites_first (ws : Grid) (label value : String)
    (rows cols r c : Nat)
    (hin : inWindow rows cols r c)
    (hmatch : matchCell (labelKeyOf label) (ws r c) = true)
    (hfirst : ∀ r' c', inWindow rows cols r' c' → rmLT (r', c') (r, c) →
      matchCell (labelKeyOf label) (ws r' c') = false) :
    (set_header_field ws label value rows cols).1 = true ∧
    (set_header_field ws label value rows cols).2 r c =
      rewriteCell value (ws r c) ∧
    (∃ s, ws r c = .str s ∧
      (set_header_field ws label value rows cols).2 r c =
        .str (rewriteText value s)) ∧
    ∀ r' c', ¬(r' = r ∧ c' = c) →
      (set_header_field ws label value rows cols).2 r' c' = ws r' c' := by
  have hfind : (windowCoords rows cols).find?
      (fun rc => matchCell (labelKeyOf label) (ws rc.1 rc.2)) = some (r, c) := by
    refine find?_eq_some_of_pairwise rmLT _ _ (r, c)
      (windowCoords_pairwise rows cols)
      ((mem_windowCoords rows cols r c).mpr hin) hmatch ?_
    intro b hb hr
    obtain ⟨br, bc⟩ := b
    exact hfirst br bc ((mem_windowCoords rows cols br bc).mp hb) hr
  obtain ⟨s, hs⟩ : ∃ s, ws r c = .str s := by
    cases hv : ws r c with
    | str s => exact ⟨s, rfl⟩
    | empty => rw [hv] at hmatch; simp [matchCell] at hmatch
    | other => rw [hv] at hmatch; simp [matchCell] at hmatch
  refine ⟨?_, ?_, ⟨s, hs, ?_⟩, ?_⟩
  · simp [set_header_field, hfind]
  · simp [set_header_field, hfind, setCell]
  · simp [set_header_field, hfind, setCell, hs, rewriteCell]
  · intro r' c' hne
    simp [set_header_field, hfind, setCell, hne]

/-- Witness for the amended C6: a grid holding `"Component:"` at (2,3) is
rewritten there to `"Component: Widget X"` and the call reports success. -/
theorem set_header_field_rewrites_first_witness :
    (set_header_field
      (fun r c => if r = 2 ∧ c = 3 then .str "Component:" else .empty)
      "Component" "Widget X" 10 12).1 = true ∧
    (set_header_field
      (fun r c => if r = 2 ∧ c = 3 then .str "Component:" else .empty)
      "Component" "Widget X" 10 12).2 2 3 = .str "Component: Widget X" := by
  have h := set_header_field_rewrites_first
    (fun r c => if r = 2 ∧ c = 3 then .str "Component:" else .empty)
    "Component" "Widget X" 10 12 2 3
    (by decide)
    (by rfl)
    (by
      intro r' c' hin hlt
      have hne : ¬(r' = 2 ∧ c' = 3) := by
        rcases hlt with h | ⟨h1, h2⟩ <;> omega
      simp only [if_neg hne]
      rfl)
  refine ⟨h.1, ?_⟩
  rw [h.2.1]
  rfl

/-- **C7**: when no string cell in the search window matches the label
prefix, `set_header_field` returns `false` and leaves every cell of the
grid unmodified. -/
theorem set_header_field_no_match (ws : Grid) (label value : String)
    (rows cols : Nat)
    (h : ∀ r c, inWindow rows cols r c →
      matchCell (labelKeyOf label) (ws r c) = false) :
    (set_header_field ws label value rows cols).1 = false ∧
    ∀ r c, (set_header_field ws label value rows cols).2 r c = ws r c := by
  have hfind : (windowCoords rows cols).find?
      (fun rc => matchCell (labelKeyOf label) (ws rc.1 rc.2)) = none := by
    rw [List.find?_eq_none]
    intro x hx
    obtain ⟨xr, xc⟩ := x
    simp only [Bool.not_eq_true]
    exact h xr xc ((mem_windowCoords rows cols xr xc).mp hx)
  constructor
  · simp [set_header_field, hfind]
  · intro r c
    simp [set_header_field, hfind]

/-- Witness for C7 on an all-empty grid. -/
theorem set_header_field_no_match_witness :
    (set_header_field (fun _ _ => .empty) "MFP" "Any" 10 12).1 = false ∧
    ∀ r c,
      (set_header_field (fun _ _ => .empty) "MFP" "Any" 10 12).2 r c =
        .empty :=
  set_header_field_no_match (fun _ _ => .empty) "MFP" "Any" 10 12
    (fun _ _ _ => rfl)

/-! ## C9: header fallbacks in `fill_excel_template` -/

theorem writeRow_preserve (ws : Grid) (row : Nat) (tc : Row) (r c : Nat)
    (h : ¬r = row) : writeRow ws row tc r c = ws r c := by
  simp [writeRow, setCell, h]

theorem writeGo_preserve (tcs : List Row) (ws : Grid) (row0 r c : Nat)
    (h : r < row0) : writeGo ws row0 tcs r c = ws r c := by
  induction tcs generalizing ws row0 with
  | nil => rfl
  | cons tc rest ih =>
    rw [writeGo, ih (writeRow ws row0 tc) (row0 + 1) (by omega),
      writeRow_preserve ws row0 tc r c (by omega)]

/-- **C9 counterexample**: with no MFP label cell anywhere and E3 already
holding the unrelated string `"Build: 7"`, `fill_excel_template` neither
rewrites a label cell nor writes the fallback: the MFP field is silently
lost, contradicting the claim that the fallback coordinate is always
written. -/
theorem fill_excel_template_mfp_lost_counterexample :
    fill_excel_template []
      (fun r c => if r = 3 ∧ c = 5 then .str "Build: 7" else .empty)
      "Comp" 3 5 = .str "Build: 7" ∧
    Cell.str "Build: 7" ≠ .str "MFP: Any" := by
  refine ⟨by rfl, by decide⟩

/-- **C9 amended**: the Component field is never lost — when no Component
label cell is in the window the fallback E2 is written unconditionally —
but the MFP fallback is conditional: when no MFP label cell is found, E3 is
set to `"MFP: Any"` only if E3 currently holds `None`, the empty string,
`"MFP:"` or `"MFP"`; otherwise E3 keeps its old value and no MFP field is
written at all. -/
theorem fill_excel_template_fallbacks (tcs : List Row) (ws : Grid)
    (name : String)
    (hC : ∀ r c, inWindow 10 12 r c →
      matchCell (labelKeyOf "Component") (ws r c) = false)
    (hM : ∀ r c, inWindow 10 12 r c →
      matchCell (labelKeyOf "MFP")
        ((setCell ws 2 5 (.str ("Component: " ++ name))) r c) = false) :
    fill_excel_template tcs ws name 2 5 =
      .str ("Component: " ++ name) ∧
    (e3Writable (ws 3 5) = true →
      fill_excel_template tcs ws name 3 5 = .str "MFP: Any") ∧
    (e3Writable (ws 3 5) = false →
      fill_excel_template tcs ws name 3 5 = ws 3 5) := by
  have h1 := set_header_field_no_match ws "Component" name 10 12 hC
  have hs1 : set_header_field ws "Component" name 10 12 = (false, ws) := by
    have hfind : (windowCoords 10 12).find?
        (fun rc => matchCell (labelKeyOf "Component") (ws rc.1 rc.2)) = none := by
      rw [List.find?_eq_none]
      intro x hx
      obtain ⟨xr, xc⟩ := x
      simp only [Bool.not_eq_true]
      exact hC xr xc ((mem_windowCoords 10 12 xr xc).mp hx)
    simp [set_header_field, hfind]
  have hs2 : set_header_field (setCell ws 2 5 (.str ("Component: " ++ name)))
      "MFP" "Any" 10 12 =
      (false, setCell ws 2 5 (.str ("Component: " ++ name))) := by
    have hfind : (windowCoords 10 12).find?
        (fun rc => matchCell (labelKeyOf "MFP")
          ((setCell ws 2 5 (.str ("Component: " ++ name))) rc.1 rc.2)) = none := by
      rw [List.find?_eq_none]
      intro x hx
      obtain ⟨xr, xc⟩ := x
      simp only [Bool.not_eq_true]
      exact hM xr xc ((mem_windowCoords 10 12 xr xc).mp hx)
    simp [set_header_field, hfind]
  have he3 : (setCell ws 2 5 (.str ("Component: " ++ name))) 3 5 = ws 3 5 := by
    simp [setCell]
  simp only [fill_excel_template, hs1]
  simp only [if_false, Bool.false_eq_true]
  rw [hs2]
  simp only [if_false, Bool.false_eq_true, he3]
  refine ⟨?_, ?_, ?_⟩
  · rw [writeGo_preserve tcs _ 6 2 5 (by omega)]
    cases hw : e3Writable (ws 3 5) with
    | true => simp [hw, setCell]
    | false => simp [hw, setCell]
  · intro hw
    rw [writeGo_preserve tcs _ 6 3 5 (by omega)]
    simp [hw, setCell]
  · intro hw
    rw [writeGo_preserve tcs _ 6 3 5 (by omega)]
    simp [hw, setCell]

/-- Witness for the amended C9 on an all-empty template grid. -/
theorem fill_excel_template_fallbacks_witness :
    fill_excel_template [] (fun _ _ => .empty) "N" 2 5 =
      .str ("Component: " ++ "N") ∧
    fill_excel_template [] (fun _ _ => .empty) "N" 3 5 = .str "MFP: Any" := by
  have h := fill_excel_template_fallbacks [] (fun _ _ => .empty) "N"
    (fun _ _ _ => rfl)
    (by
      intro r c _
      by_cases hrc : r = 2 ∧ c = 5
      · simp only [setCell, if_pos hrc]
        decide
      · simp only [setCell, if_neg hrc]
        rfl)
  exact ⟨h.1, h.2.1 rfl⟩

/-! ## C8: `extract_component` against the claim -/

/-- **C8 counterexample**: on `" Component: X"` no line starts with the
`Component:` prefix (the line starts with a space), so the claim demands
`"Unknown"`; the code's regex permits leading whitespace and returns
`"X"`. -/
theorem extract_component_counterexample :
    extract_component " Component: X" = "X" ∧
    componentClaimValue " Component: X" = "Unknown" ∧
    ("X" : String) ≠ "Unknown" := by
  refine ⟨by rfl, by rfl, by decide⟩

theorem contains_eq_false_iff (c : Char) (l : List Char) :
    l.contains c = false ↔ ∀ x ∈ l, ¬x = c := by
  rw [List.contains_eq_any_beq]
  simp only [List.any_eq_false, beq_iff_eq]
  constructor
  · intro h x hx hxc
    exact h x hx hxc.symm
  · intro h x hx hxc
    exact h x hx hxc.symm

theorem splitCh_ne_nil (c : Char) (cs : List Char) : splitCh c cs ≠ [] := by
  cases cs with
  | nil => simp [splitCh]
  | cons x rest =>
    by_cases hx : x = c
    · simp [splitCh, hx]
    · simp only [splitCh, if_neg hx]
      cases splitCh c rest <;> simp

theorem splitCh_mem_ne (c : Char) (cs : List Char) :
    ∀ g ∈ splitCh c cs, ∀ x ∈ g, ¬x = c := by
  induction cs with
  | nil =>
    intro g hg x hx
    simp only [splitCh, List.mem_singleton] at hg
    subst hg
    simp at hx
  | cons ch rest ih =>
    intro g hg x hx
    by_cases hch : ch = c
    · subst hch
      simp only [splitCh, if_pos rfl] at hg
      rcases List.mem_cons.mp hg with rfl | hg
      · simp at hx
      · exact ih g hg x hx
    · simp only [splitCh, if_neg hch] at hg
      cases hsp : splitCh c rest with
      | nil => exact absurd hsp (splitCh_ne_nil c rest)
      | cons g0 gs =>
        rw [hsp] at hg
        rcases List.mem_cons.mp hg with rfl | hg
        · rcases List.mem_cons.mp hx with rfl | hx
          · exact hch
          · exact ih g0 (by rw [hsp]; simp) x hx
        · exact ih g (by rw [hsp]; simp [hg]) x hx

theorem interChar_splitCh (c : Char) (cs : List Char) :
    interChar c (splitCh c cs) = cs := by
  induction cs with
  | nil => rfl
  | cons x rest ih =>
    by_cases hx : x = c
    · subst hx
      simp only [splitCh, if_pos rfl]
      cases hsp : splitCh x rest with
      | nil => exact absurd hsp (splitCh_ne_nil x rest)
      | cons g gs =>
        rw [hsp] at ih
        simp only [interChar, List.nil_append]
        rw [ih]
    · simp only [splitCh, if_neg hx]
      cases hsp : splitCh c rest with
      | nil => exact absurd hsp (splitCh_ne_nil c rest)
      | cons g gs =>
        rw [hsp] at ih
        cases gs with
        | nil =>
          simp only [interChar] at ih ⊢
          rw [ih]
        | cons g2 gs2 =>
          simp only [interChar, List.cons_append] at ih ⊢
          rw [← ih]

theorem anchorsGo_of_no_nl (l : List Char) (h : ∀ x ∈ l, ¬x = '\n') :
    anchorsGo l = [] := by
  induction l with
  | nil => rfl
  | cons x rest ih =>
    rw [anchorsGo, if_neg (h x (by simp))]
    exact ih (fun y hy => h y (by simp [hy]))

theorem anchorsGo_append_nl (l u : List Char) (h : ∀ x ∈ l, ¬x = '\n') :
    anchorsGo (l ++ '\n' :: u) = u :: anchorsGo u := by
  induction l with
  | nil =>
    simp only [List.nil_append]
    rw [anchorsGo, if_pos rfl]
  | cons x rest ih =>
    simp only [List.cons_append]
    rw [anchorsGo, if_neg (h x (by simp))]
    exact ih (fun y hy => h y (by simp [hy]))

theorem dropWhile_append_all (p : Char → Bool) (xs ys : List Char)
    (h : ∀ x ∈ xs, p x = true) :
    (xs ++ ys).dropWhile p = ys.dropWhile p := by
  induction xs with
  | nil => rfl
  | cons x rest ih =>
    simp only [List.cons_append, List.dropWhile_cons, h x (by simp), if_true]
    exact ih (fun y hy => h y (by simp [hy]))

theorem dropWhile_append_left (p : Char → Bool) (xs ys : List Char)
    (h : xs.dropWhile p ≠ []) :
    (xs ++ ys).dropWhile p = xs.dropWhile p ++ ys := by
  induction xs with
  | nil => simp at h
  | cons x rest ih =>
    rw [List.dropWhile_cons] at h
    cases hp : p x with
    | true =>
      rw [hp] at h
      simp only [if_true] at h
      simp only [List.cons_append, List.dropWhile_cons, hp, if_true]
      exact ih h
    | false =>
      simp only [List.cons_append, List.dropWhile_cons, hp,
        Bool.false_eq_true, if_false]

theorem takeWhile_append_left (p : Char → Bool) (xs ys : List Char)
    (h : xs.dropWhile p ≠ []) :
    (xs ++ ys).takeWhile p = xs.takeWhile p := by
  induction xs with
  | nil => simp at h
  | cons x rest ih =>
    rw [List.dropWhile_cons] at h
    cases hp : p x with
    | true =>
      rw [hp] at h
      simp only [if_true] at h
      simp only [List.cons_append, List.takeWhile_cons, hp, if_true]
      rw [ih h]
    | false =>
      simp only [List.cons_append, List.takeWhile_cons, hp,
        Bool.false_eq_true, if_false]

theorem lowerC_eq_colon (c : Char) (h : lowerC c = ':') : c = ':' := by
  unfold lowerC Char.toLower at h
  simp only [] at h
  by_cases hcond : c.toNat ≥ 65 ∧ c.toNat ≤ 90
  · exfalso
    rw [if_pos hcond] at h
    have hvalid : Nat.isValidChar (c.toNat + 32) := Or.inl (by omega)
    have h2 := congrArg Char.toNat h
    rw [Char.ofNat, dif_pos hvalid] at h2
    rw [Char.ofNatAux] at h2
    simp only [Char.toNat, UInt32.toNat, BitVec.toNat_ofNatLt] at h2 hcond
    have h3 : (':' : Char).val.toBitVec.toNat = 58 := by decide
    omega
  · rwa [if_neg hcond] at h

theorem ciStartsL_length_le (ns hay : List Char)
    (h : ciStartsL ns hay = true) : ns.length ≤ hay.length := by
  induction ns generalizing hay with
  | nil => simp
  | cons n ns' ih =>
    cases hay with
    | nil => simp [ciStartsL] at h
    | cons h0 hs =>
      rw [ciStartsL, Bool.and_eq_true] at h
      have := ih hs h.2
      simp only [List.length_cons]
      omega

theorem ciStartsL_append_of_le (ns x t : List Char) (h : ns.length ≤ x.length) :
    ciStartsL ns (x ++ t) = ciStartsL ns x := by
  induction ns generalizing x with
  | nil => simp [ciStartsL]
  | cons n ns' ih =>
    cases x with
    | nil => simp at h
    | cons x0 xs =>
      simp only [List.cons_append, ciStartsL, List.append_eq]
      rw [ih xs (by simpa using h)]

theorem ciStartsL_append_nl (ns x u : List Char) (hlen : x.length < ns.length)
    (hnl : ∀ ch ∈ ns, ¬ch = '\n') :
    ciStartsL ns (x ++ '\n' :: u) = false := by
  induction x generalizing ns with
  | nil =>
    cases ns with
    | nil => simp at hlen
    | cons n ns' =>
      simp only [List.nil_append, ciStartsL]
      have h1 : lowerC '\n' = '\n' := by decide
      have h2 : ¬n = '\n' := hnl n (by simp)
      rw [h1]
      simp [h2]
  | cons x0 xs ih =>
    cases ns with
    | nil => simp at hlen
    | cons n ns' =>
      simp only [List.cons_append, ciStartsL, List.append_eq]
      rw [ih ns' (by simpa using hlen) (fun ch hch => hnl ch (by simp [hch]))]
      simp

theorem ciStartsL_snoc (ns : List Char) (cn : Char) (hay : List Char) :
    ciStartsL (ns ++ [cn]) hay = true ↔
      (ciStartsL ns hay = true ∧
        ∃ h rest, hay.drop ns.length = h :: rest ∧ cn = lowerC h) := by
  induction ns generalizing hay with
  | nil =>
    cases hay with
    | nil => simp [ciStartsL]
    | cons h0 hs => simp [ciStartsL]
  | cons n ns' ih =>
    cases hay with
    | nil => simp [ciStartsL]
    | cons h0 hs =>
      simp only [List.cons_append, ciStartsL, Bool.and_eq_true,
        List.length_cons, List.drop_succ_cons, List.append_eq]
      rw [ih hs]
      tauto

theorem findSome?_min_nat {α : Type} (l : List Nat) (f : Nat → Option α)
    (g0 : Nat) (v : α)
    (hpw : l.Pairwise (· < ·)) (hmem : g0 ∈ l) (hv : f g0 = some v)
    (hnone : ∀ g ∈ l, g < g0 → f g = none) :
    l.findSome? f = some v := by
  induction l with
  | nil => simp at hmem
  | cons x xs ih =>
    rcases List.pairwise_cons.mp hpw with ⟨hx, hxs⟩
    rcases List.mem_cons.mp hmem with rfl | hmem'
    · rw [List.findSome?_cons, hv]
    · have hlt : x < g0 := hx g0 hmem'
      have hfx : f x = none := hnone x (by simp) hlt
      rw [List.findSome?_cons, hfx]
      exact ih hxs hmem' (fun g hg hglt => hnone g (by simp [hg]) hglt)

theorem stripChars_idem (l : List Char) :
    stripChars (stripChars l) = stripChars l := by
  unfold stripChars
  have h1 : ((l.dropWhile pyWs).rdropWhile pyWs).dropWhile pyWs =
      (l.dropWhile pyWs).rdropWhile pyWs := by
    cases hd : (l.dropWhile pyWs).rdropWhile pyWs with
    | nil => rfl
    | cons a as =>
      have hpre := List.rdropWhile_prefix pyWs (l.dropWhile pyWs)
      rw [hd] at hpre
      obtain ⟨t, ht⟩ := hpre
      have hne : l.dropWhile pyWs ≠ [] := by
        rw [← ht]
        simp
      have hh1 : (l.dropWhile pyWs).head? = some a := by
        rw [← ht]
        simp
      have hh2 := List.head?_eq_head hne
      rw [hh1] at hh2
      have hna := List.head_dropWhile_not pyWs l hne
      rw [← Option.some_inj.mp hh2] at hna
      rw [List.dropWhile_cons, hna]
      simp
  rw [h1]
  exact List.rdropWhile_idempotent pyWs (l.dropWhile pyWs)

theorem contains_eq_true_of_mem (c : Char) (l : List Char) (h : c ∈ l) :
    l.contains c = true := by
  rw [List.contains_eq_any_beq]
  exact List.any_eq_true.mpr ⟨c, h, by simp⟩

theorem tailMatch_inner (m t : List Char)
    (hm_nl : ∀ x ∈ m, ¬x = '\n')
    (hmne : m ≠ [])
    (hhead : pyWs (m.head hmne) = false)
    (ht : t = [] ∨ ∃ u, t = '\n' :: u) :
    ((List.range (m ++ t).length).map (fun n => n + 1)).findSome?
      (fun g => if ((m ++ t).take g).all (fun ch => ch != '\n') &&
          restOk ((m ++ t).drop g) then some ((m ++ t).take g) else none) =
      some (m.rdropWhile pyWs) := by
  have hsplit : m.rdropWhile pyWs ++ (m.reverse.takeWhile pyWs).reverse = m := by
    show (m.reverse.dropWhile pyWs).reverse ++
      (m.reverse.takeWhile pyWs).reverse = m
    rw [← List.reverse_append, List.takeWhile_append_dropWhile,
      List.reverse_reverse]
  have htw_ws : ∀ x ∈ (m.reverse.takeWhile pyWs).reverse, pyWs x = true := by
    intro x hx
    rw [List.mem_reverse] at hx
    exact List.mem_takeWhile_imp hx
  have hcore_ne : m.rdropWhile pyWs ≠ [] := by
    intro hc
    have hallw : ∀ x ∈ m, pyWs x := List.rdropWhile_eq_nil_iff.mp hc
    have : pyWs (m.head hmne) = true := hallw _ (List.head_mem hmne)
    rw [hhead] at this
    cases this
  have hg0pos : 1 ≤ (m.rdropWhile pyWs).length := by
    cases hc : m.rdropWhile pyWs with
    | nil => exact absurd hc hcore_ne
    | cons a as => simp
  have hg0le : (m.rdropWhile pyWs).length ≤ m.length := by
    conv_rhs => rw [← hsplit]
    simp
  have hcore_sub : ∀ x ∈ m.rdropWhile pyWs, x ∈ m := by
    intro x hx
    rw [← hsplit]
    exact List.mem_append_left _ hx
  have hlast : pyWs ((m.rdropWhile pyWs).getLast hcore_ne) = false := by
    have := List.rdropWhile_last_not pyWs m hcore_ne
    simpa using this
  refine findSome?_min_nat _ _ ((m.rdropWhile pyWs).length) _ ?_ ?_ ?_ ?_
  · rw [List.pairwise_map]
    exact (List.pairwise_lt_range _).imp (by omega)
  · rw [List.mem_map]
    refine ⟨(m.rdropWhile pyWs).length - 1, List.mem_range.mpr ?_, by omega⟩
    have : m.length ≤ (m ++ t).length := by simp
    omega
  · -- the condition holds at the length of the stripped core
    have htake : (m ++ t).take (m.rdropWhile pyWs).length = m.rdropWhile pyWs := by
      rw [List.take_append_of_le_length hg0le]
      have hTL := List.take_left (m.rdropWhile pyWs)
        ((m.reverse.takeWhile pyWs).reverse)
      rw [hsplit] at hTL
      exact hTL
    have hdropm : m.drop (m.rdropWhile pyWs).length =
        (m.reverse.takeWhile pyWs).reverse := by
      have hDL := List.drop_left (m.rdropWhile pyWs)
        ((m.reverse.takeWhile pyWs).reverse)
      rw [hsplit] at hDL
      exact hDL
    have hdrop : (m ++ t).drop (m.rdropWhile pyWs).length =
        (m.reverse.takeWhile pyWs).reverse ++ t := by
      rw [List.drop_append_eq_append_drop, Nat.sub_eq_zero_of_le hg0le,
        List.drop_zero, hdropm]
    have con1 : ((m ++ t).take (m.rdropWhile pyWs).length).all
        (fun ch => ch != '\n') = true := by
      rw [htake, List.all_eq_true]
      intro x hx
      simpa using hm_nl x (hcore_sub x hx)
    have con2 : restOk ((m ++ t).drop (m.rdropWhile pyWs).length) = true := by
      rw [hdrop, restOk]
      rcases ht with rfl | ⟨u, rfl⟩
      · rw [List.append_nil]
        have : ((m.reverse.takeWhile pyWs).reverse).all pyWs = true :=
          List.all_eq_true.mpr htw_ws
        rw [this]
        simp
      · rw [takeWhile_append_of_all pyWs _ _ htw_ws]
        have hnw : pyWs '\n' = true := by decide
        rw [List.takeWhile_cons_of_pos hnw]
        have hmem : '\n' ∈ (m.reverse.takeWhile pyWs).reverse ++
            '\n' :: List.takeWhile pyWs u :=
          List.mem_append_right _ (by simp)
        rw [contains_eq_true_of_mem '\n' _ hmem]
        simp
    rw [con1, con2, htake]
    simp
  · -- the condition fails below the core length
    intro g hg hlt
    rw [List.mem_map] at hg
    obtain ⟨k, hk, rfl⟩ := hg
    have hg1 : 1 ≤ k + 1 := by omega
    have hgm : k + 1 ≤ m.length := by omega
    have hcdg_ne : (m.rdropWhile pyWs).drop (k + 1) ≠ [] := by
      intro hdn
      have := congrArg List.length hdn
      simp only [List.length_drop, List.length_nil] at this
      omega
    have hlast2 : ((m.rdropWhile pyWs).drop (k + 1)).getLast hcdg_ne =
        (m.rdropWhile pyWs).getLast hcore_ne := List.getLast_drop hcdg_ne
    have hwitness : ∃ x ∈ m.drop (k + 1), pyWs x = false := by
      refine ⟨(m.rdropWhile pyWs).getLast hcore_ne, ?_, hlast⟩
      have h1 : (m.rdropWhile pyWs).getLast hcore_ne ∈
          (m.rdropWhile pyWs).drop (k + 1) := by
        rw [← hlast2]
        exact List.getLast_mem hcdg_ne
      have h2 : m.drop (k + 1) =
          (m.rdropWhile pyWs).drop (k + 1) ++
            (m.reverse.takeWhile pyWs).reverse := by
        have hDA : (m.rdropWhile pyWs ++
              (m.reverse.takeWhile pyWs).reverse).drop (k + 1) =
            (m.rdropWhile pyWs).drop (k + 1) ++
              (m.reverse.takeWhile pyWs).reverse :=
          List.drop_append_of_le_length (by omega)
        rw [hsplit] at hDA
        exact hDA
      rw [h2]
      exact List.mem_append_left _ h1
    have hdropg : (m ++ t).drop (k + 1) = m.drop (k + 1) ++ t := by
      rw [List.drop_append_eq_append_drop, Nat.sub_eq_zero_of_le hgm,
        List.drop_zero]
    have hdw_ne : (m.drop (k + 1)).dropWhile pyWs ≠ [] := by
      intro hdn
      obtain ⟨x, hx, hxw⟩ := hwitness
      have := List.dropWhile_eq_nil_iff.mp hdn x hx
      rw [hxw] at this
      cases this
    have hro : restOk ((m ++ t).drop (k + 1)) = false := by
      rw [hdropg, restOk]
      have h3 : ((m.drop (k + 1)) ++ t).takeWhile pyWs =
          (m.drop (k + 1)).takeWhile pyWs :=
        takeWhile_append_left pyWs _ t hdw_ne
      have h4 : ((m.drop (k + 1)).takeWhile pyWs).contains '\n' = false := by
        rw [contains_eq_false_iff]
        intro x hx
        have hxm : x ∈ m :=
          (List.drop_sublist (k + 1) m).subset
            ((List.takeWhile_sublist pyWs).subset hx)
        exact hm_nl x hxm
      have h5 : ((m.drop (k + 1)) ++ t).all pyWs = false := by
        rw [List.all_eq_false]
        obtain ⟨x, hx, hxw⟩ := hwitness
        exact ⟨x, List.mem_append_left _ hx, by simp [hxw]⟩
      rw [h3, h4, h5]
      rfl
    rw [hro]
    simp

theorem tailMatch_line (r t : List Char)
    (hnl : ∀ x ∈ r, ¬x = '\n')
    (hnw : ∃ ch ∈ r, pyWs ch = false)
    (ht : t = [] ∨ ∃ u, t = '\n' :: u) :
    tailMatch (r ++ t) = some (stripChars r) := by
  have hmne : r.dropWhile pyWs ≠ [] := by
    intro hd
    obtain ⟨ch, hch, hchw⟩ := hnw
    have := List.dropWhile_eq_nil_iff.mp hd ch hch
    rw [hchw] at this
    cases this
  have hA : wsRunLen (r ++ t) = (r.takeWhile pyWs).length := by
    rw [wsRunLen, takeWhile_append_left pyWs r t hmne]
  have hB : (r ++ t).drop (r.takeWhile pyWs).length = r.dropWhile pyWs ++ t := by
    have h1 : (r.takeWhile pyWs ++ (r.dropWhile pyWs ++ t)).drop
        (r.takeWhile pyWs).length = r.dropWhile pyWs ++ t :=
      List.drop_left _ _
    rw [← List.append_assoc, List.takeWhile_append_dropWhile] at h1
    exact h1
  have hfirst : tailTryA (r ++ t) ((r.takeWhile pyWs).length) =
      some (stripChars r) := by
    simp only [tailTryA]
    rw [hB]
    exact tailMatch_inner (r.dropWhile pyWs) t
      (fun x hx => hnl x ((List.dropWhile_sublist pyWs).subset hx))
      hmne (List.head_dropWhile_not pyWs r hmne) ht
  rw [tailMatch, hA, List.range_succ, List.reverse_append]
  simp only [List.reverse_singleton, List.singleton_append]
  rw [List.findSome?_cons, hfirst]

theorem tryAt_blank_cons (l u : List Char) (hws : ∀ x ∈ l, pyWs x = true) :
    tryAt (l ++ '\n' :: u) = tryAt u := by
  have hall : ∀ x ∈ l ++ ['\n'], pyWs x = true := by
    intro x hx
    rcases List.mem_append.mp hx with hx | hx
    · exact hws x hx
    · rw [List.mem_singleton.mp hx]
      decide
  have hdw : (l ++ '\n' :: u).dropWhile pyWs = u.dropWhile pyWs := by
    have := dropWhile_append_all pyWs (l ++ ['\n']) u hall
    rwa [List.append_assoc, List.singleton_append] at this
  rw [tryAt, tryAt, hdw]

theorem tryAt_blank_nil (l : List Char) (hws : ∀ x ∈ l, pyWs x = true) :
    tryAt l = none := by
  rw [tryAt, List.dropWhile_eq_nil_iff.mpr (fun x hx => hws x hx)]
  rfl

theorem compLower_data : ("component:".data : List Char) = compLower ++ [':'] := by
  rfl

theorem tryAt_line (l t : List Char)
    (hnl : ∀ x ∈ l, ¬x = '\n')
    (hnb : l.dropWhile pyWs ≠ [])
    (ht : t = [] ∨ ∃ u, t = '\n' :: u)
    (hg : lineGuard l = true) :
    tryAt (l ++ t) =
      (if beginsComp l then
        some (stripChars ((l.dropWhile pyWs).drop 10)) else none) := by
  have hx_nl : ∀ c ∈ l.dropWhile pyWs, ¬c = '\n' :=
    fun c hc => hnl c ((List.dropWhile_sublist pyWs).subset hc)
  have hdw : (l ++ t).dropWhile pyWs = l.dropWhile pyWs ++ t :=
    dropWhile_append_left pyWs l t hnb
  have hclen : compLower.length = 9 := by rfl
  rw [tryAt, hdw, tryAtCore]
  by_cases hci : ciStartsL compLower (l.dropWhile pyWs) = true
  · -- the label matches at the start of the stripped line
    have h9 : 9 ≤ (l.dropWhile pyWs).length := by
      have := ciStartsL_length_le compLower _ hci
      omega
    rw [ciStartsL_append_of_le compLower _ t (by omega), hci]
    simp only [if_true]
    have hdrop9 : ((l.dropWhile pyWs) ++ t).drop 9 =
        (l.dropWhile pyWs).drop 9 ++ t :=
      List.drop_append_of_le_length h9
    rw [hdrop9]
    simp only [lineGuard, hci, if_true] at hg
    cases hd9 : (l.dropWhile pyWs).drop 9 with
    | nil =>
      rw [hd9] at hg
      simp at hg
    | cons c rest =>
      rw [hd9] at hg
      simp only [] at hg
      by_cases hc : c = ':'
      · subst hc
        rw [if_pos rfl] at hg
        have hrest_nl : ∀ x ∈ rest, ¬x = '\n' := by
          intro x hx
          refine hx_nl x ((List.drop_sublist 9 _).subset ?_)
          rw [hd9]
          simp [hx]
        have hrest_nw : ∃ ch ∈ rest, pyWs ch = false := by
          rw [List.any_eq_true] at hg
          obtain ⟨ch, hch, hchw⟩ := hg
          exact ⟨ch, hch, by simpa using hchw⟩
        have hcolws : pyWs ':' = false := by decide
        rw [List.cons_append, List.dropWhile_cons, hcolws]
        simp only [Bool.false_eq_true, if_false, if_pos rfl]
        rw [tailMatch_line rest t hrest_nl hrest_nw ht]
        have hbc : beginsComp l = true := by
          rw [beginsComp, compLower_data]
          refine (ciStartsL_snoc compLower ':' _).mpr ⟨hci, ':', rest, ?_, by decide⟩
          rw [hclen, hd9]
        rw [hbc, if_pos rfl]
        have hd10 : (l.dropWhile pyWs).drop 10 = rest := by
          have : (l.dropWhile pyWs).drop 10 =
              ((l.dropWhile pyWs).drop 9).drop 1 := by
            rw [List.drop_drop]
          rw [this, hd9]
          rfl
        rw [hd10]
        simp
      · rw [if_neg hc] at hg
        have hcws : pyWs c = false := by simpa using hg
        rw [List.cons_append, List.dropWhile_cons, hcws]
        simp only [Bool.false_eq_true, if_false, if_neg hc]
        have hbc : beginsComp l = false := by
          rw [beginsComp, compLower_data]
          by_contra hb
          rw [Bool.not_eq_false] at hb
          obtain ⟨_, ch, rest2, hdrop, hcolon⟩ := (ciStartsL_snoc compLower ':' _).mp hb
          rw [hclen, hd9] at hdrop
          injection hdrop with hch _
          subst hch
          exact hc (lowerC_eq_colon c hcolon.symm)
        rw [hbc]
        simp
  · -- the label does not match
    rw [Bool.not_eq_true] at hci
    have hbc : beginsComp l = false := by
      rw [beginsComp, compLower_data]
      by_contra hb
      rw [Bool.not_eq_false] at hb
      have h1 := ((ciStartsL_snoc compLower ':' _).mp hb).1
      rw [hci] at h1
      cases h1
    rw [hbc]
    by_cases hlen : 9 ≤ (l.dropWhile pyWs).length
    · rw [ciStartsL_append_of_le compLower _ t (by omega), hci]
      simp
    · push_neg at hlen
      rcases ht with rfl | ⟨u, rfl⟩
      · rw [List.append_nil, hci]
        simp
      · rw [ciStartsL_append_nl compLower _ u (by omega)
          (by decide)]
        simp

theorem beginsComp_of_blank (l : List Char) (hb : l.dropWhile pyWs = []) :
    beginsComp l = false := by
  rw [beginsComp, hb]
  rfl

theorem searchLines (ls : List (List Char))
    (hnl : ∀ l ∈ ls, ∀ x ∈ l, ¬x = '\n')
    (hg : ∀ l ∈ ls, lineGuard l = true) :
    (anchorSuffixes (interChar '\n' ls)).findSome? tryAt =
      (ls.find? beginsComp).map
        (fun l => stripChars ((l.dropWhile pyWs).drop 10)) := by
  induction ls with
  | nil =>
    simp only [interChar, anchorSuffixes]
    rw [anchorsGo, List.findSome?_cons, tryAt_blank_nil [] (by simp)]
    rfl
  | cons l ls ih =>
    have hlnl := hnl l (by simp)
    have hlg := hg l (by simp)
    cases ls with
    | nil =>
      simp only [interChar]
      rw [anchorSuffixes, anchorsGo_of_no_nl l hlnl, List.findSome?_cons]
      by_cases hb : l.dropWhile pyWs = []
      · have hws : ∀ x ∈ l, pyWs x = true :=
          fun x hx => List.dropWhile_eq_nil_iff.mp hb x hx
        rw [tryAt_blank_nil l hws,
          List.find?_cons_of_neg _ (by simp [beginsComp_of_blank l hb])]
        rfl
      · have hline := tryAt_line l [] hlnl hb (Or.inl rfl) hlg
        rw [List.append_nil] at hline
        rw [hline]
        by_cases hbc : beginsComp l = true
        · rw [if_pos hbc, List.find?_cons_of_pos _ hbc]
          rfl
        · rw [Bool.not_eq_true] at hbc
          rw [hbc]
          simp only [Bool.false_eq_true, if_false]
          rw [List.find?_cons_of_neg _ (by simp [hbc])]
          rfl
    | cons l2 ls2 =>
      have hih := ih (fun x hx => hnl x (by simp [hx]))
        (fun x hx => hg x (by simp [hx]))
      rw [interChar, anchorSuffixes, anchorsGo_append_nl l _ hlnl,
        List.findSome?_cons]
      by_cases hb : l.dropWhile pyWs = []
      · have hws : ∀ x ∈ l, pyWs x = true :=
          fun x hx => List.dropWhile_eq_nil_iff.mp hb x hx
        have hbc := beginsComp_of_blank l hb
        rw [tryAt_blank_cons l _ hws,
          List.find?_cons_of_neg _ (by simp [hbc]), ← hih]
        rw [anchorSuffixes, List.findSome?_cons]
        cases tryAt (interChar '\n' (l2 :: ls2)) <;> rfl
      · have hline := tryAt_line l ('\n' :: interChar '\n' (l2 :: ls2)) hlnl hb
          (Or.inr ⟨_, rfl⟩) hlg
        rw [hline]
        by_cases hbc : beginsComp l = true
        · rw [if_pos hbc, List.find?_cons_of_pos _ hbc]
          rfl
        · rw [Bool.not_eq_true] at hbc
          rw [hbc]
          simp only [Bool.false_eq_true, if_false]
          rw [List.find?_cons_of_neg _ (by simp [hbc]), ← hih]
          rfl

/-- **C8 amended**: for every model-output text whose lines are all *clean*
for the component search (`lineGuard`), `extract_component` returns the
stripped text after the colon of the first line whose left-stripped text
begins with a case-insensitive `Component:` (leading whitespace before the
label is permitted), and the sentinel `"Unknown"` when no such line
exists. -/
theorem extract_component_amended (s : String)
    (hG : ∀ l ∈ splitCh '\n' s.data, lineGuard l = true) :
    extract_component s = componentFromLines (splitCh '\n' s.data) := by
  have hnl : ∀ l ∈ splitCh '\n' s.data, ∀ x ∈ l, ¬x = '\n' :=
    fun l hl x hx => splitCh_mem_ne '\n' s.data l hl x hx
  have h := searchLines (splitCh '\n' s.data) hnl hG
  rw [interChar_splitCh] at h
  rw [extract_component, reSearchComponent, h, componentFromLines]
  cases hf : (splitCh '\n' s.data).find? beginsComp with
  | none => rfl
  | some l =>
    simp only [Option.map_some']
    rw [stripChars_idem]

/-- Witness for the amended C8 on a three-line model output. -/
theorem extract_component_amended_witness :
    extract_component "Intro text\nComponent: Widget X\nMore text" =
      "Widget X" ∧
    componentFromLines
      (splitCh '\n' ("Intro text\nComponent: Widget X\nMore text" : String).data) =
      "Widget X" := by
  have h := extract_component_amended
    "Intro text\nComponent: Widget X\nMore text" (by decide)
  refine ⟨?_, by rfl⟩
  rw [h]
  rfl
